import Mathlib

/-!
Verification development for the polyhedra-viewer core
(`src/polyhedra.js`, `src/unnamed/part_002`, `src/unnamed/part_003`).

Modelling conventions:
* JavaScript numbers are modelled by `ℝ`; `Math.sqrt` by `Real.sqrt`.
  Division by zero yields `0` in the model (JS would yield `NaN/Infinity`;
  the spec classifies those inputs as numeric degeneracies, out of the
  handled-input range).
* A vertex is a triple `ℝ × ℝ × ℝ`; a face is a `List ℕ` of vertex indices.
* JS string edge keys `"a-b"` (with `a ≤ b` numerically) are modelled by
  canonical pairs `(min, max)`.  The JS key encoding is injective (exactly one
  dash, decimal components), so key equality coincides with pair equality.
* Out-of-range array reads (`vertices[i]` giving `undefined`, whose later
  dereference throws a `TypeError`) are modelled by functions returning
  `Option`: `none` means the call faults (or, for the dual's face-ordering
  walk, loops forever) instead of returning a result.
* JS `Object.keys` iteration over an object whose keys are array indices is
  in ascending numeric order (ECMAScript OrdinaryOwnPropertyKeys), which the
  model makes explicit by sorting the occurring vertex indices.
-/

namespace PolyhedraViewer

/-! ### Vector helpers (local helpers of `computeDual`, src/unnamed/part_003) -/

/-- A 3D point, as the JS array `[x, y, z]`. -/
abbrev Pt : Type := ℝ × ℝ × ℝ

/-- `cross(a, b)` from `computeDual`. -/
def cross (a b : Pt) : Pt :=
  (a.2.1 * b.2.2 - a.2.2 * b.2.1,
   a.2.2 * b.1 - a.1 * b.2.2,
   a.1 * b.2.1 - a.2.1 * b.1)

/-- `dot(a, b)` from `computeDual`. -/
def dot (a b : Pt) : ℝ := a.1 * b.1 + a.2.1 * b.2.1 + a.2.2 * b.2.2

/-- `sub(a, b)` from `computeDual`. -/
def sub (a b : Pt) : Pt := (a.1 - b.1, a.2.1 - b.2.1, a.2.2 - b.2.2)

/-- `normalize(v)` from `computeDual`: divides by the Euclidean length when
it is positive, otherwise returns the zero vector. -/
noncomputable def normalize (v : Pt) : Pt :=
  let len := Real.sqrt (v.1 * v.1 + v.2.1 * v.2.1 + v.2.2 * v.2.2)
  if 0 < len then (v.1 / len, v.2.1 / len, v.2.2 / len) else (0, 0, 0)

/-- Euclidean norm of a point, `Math.sqrt(dot(v, v))`. -/
noncomputable def norm3 (v : Pt) : ℝ := Real.sqrt (dot v v)

/-! ### Edge enumeration and deduplication

Both `buildEdgesGeometry` (src/polyhedra.js) and step 1 of `computeDual`
(src/unnamed/part_003) walk every face's consecutive wrapped index pairs and
deduplicate them through a set of canonical `"min-max"` string keys. -/

/-- The canonical form of an edge key: `a < b ? (a, b) : (b, a)`. -/
def canon (p : ℕ × ℕ) : ℕ × ℕ := if p.1 < p.2 then p else (p.2, p.1)

/-- The consecutive wrapped index pairs of one face:
`(face[i], face[(i+1) % face.length])` for each `i`. -/
def faceEdges (face : List ℕ) : List (ℕ × ℕ) :=
  (List.range face.length).map fun i =>
    (face.getD i 0, face.getD ((i + 1) % face.length) 0)

/-- All wrapped index pairs of all faces, in program scan order. -/
def wrappedPairs (faces : List (List ℕ)) : List (ℕ × ℕ) :=
  faces.flatMap faceEdges

/-- The `edgeSet`/`seenEdges` loop: keep a pair when its canonical key has not
been seen, recording the key.  Emits pairs in first-encounter order, in their
original orientation (as the JS code indexes `vertices[a]`, `vertices[b]`). -/
def dedupEdges (seen : List (ℕ × ℕ)) : List (ℕ × ℕ) → List (ℕ × ℕ)
  | [] => []
  | p :: rest =>
    if canon p ∈ seen then dedupEdges seen rest
    else p :: dedupEdges (canon p :: seen) rest

/-- The unique edges of a face list, in first-encounter order. -/
def uniqueEdges (faces : List (List ℕ)) : List (ℕ × ℕ) :=
  dedupEdges [] (wrappedPairs faces)

/-- Specification-side notion: the finite set of distinct unordered
(adjacent, wrapped) index pairs of the face list, encoded canonically. -/
def edgeFinset (faces : List (List ℕ)) : Finset (ℕ × ℕ) :=
  ((wrappedPairs faces).map canon).toFinset

/-! ### `computeDual` (src/unnamed/part_003, lines 140–314) -/

/-- Midpoint distance from the origin of edge `(a, b)`:
`Math.sqrt(dot(mid, mid))` with `mid = (va + vb) / 2`. -/
noncomputable def midDist (vertices : List Pt) (p : ℕ × ℕ) : ℝ :=
  let va := vertices.getD p.1 0
  let vb := vertices.getD p.2 0
  let mid : Pt := ((va.1 + vb.1) / 2, (va.2.1 + vb.2.1) / 2, (va.2.2 + vb.2.2) / 2)
  Real.sqrt (dot mid mid)

/-- Step 1 of `computeDual`: `midsphereR2 = (midpointDistSum / edgeCount)²`,
summing the midpoint distances of the unique edges in first-encounter order. -/
noncomputable def midsphereR2 (vertices : List Pt) (faces : List (List ℕ)) : ℝ :=
  (((uniqueEdges faces).map (midDist vertices)).sum / ((uniqueEdges faces).length : ℝ)) ^ 2

/-- The per-face reciprocation formula of step 2 of `computeDual`, with the
squared reciprocation radius `r2` as a parameter: the unit normal from the
first two edge vectors, scaled by `(r2 / d) * sign` where `d = |v0 · n|` and
`sign` resolves which side of the origin the face lies on. -/
noncomputable def dualVertexOfFace (vertices : List Pt) (r2 : ℝ) (face : List ℕ) : Pt :=
  let v0 := vertices.getD (face.getD 0 0) 0
  let v1 := vertices.getD (face.getD 1 0) 0
  let v2 := vertices.getD (face.getD 2 0) 0
  let normal := normalize (cross (sub v1 v0) (sub v2 v0))
  let d := |dot v0 normal|
  let csum : Pt := (face.map fun i => vertices.getD i 0).sum
  let centroid : Pt := (csum.1 / face.length, csum.2.1 / face.length, csum.2.2 / face.length)
  let sign : ℝ := if 0 < dot centroid normal then 1 else -1
  let dist := r2 / d
  (normal.1 * dist * sign, normal.2.1 * dist * sign, normal.2.2 * dist * sign)

/-- Step 2 of `computeDual`: one dual vertex per original face. -/
noncomputable def dualVertices (vertices : List Pt) (faces : List (List ℕ)) : List Pt :=
  faces.map (dualVertexOfFace vertices (midsphereR2 vertices faces))

/-! #### Steps 3–4: dual faces by walking face adjacency around each vertex -/

/-- Step 3, `vertexToFaces[v]`: the incident-face list of vertex `v`, pushed in
face-scan order, one entry per occurrence of `v` in a face. -/
def vertexAdj (faces : List (List ℕ)) (v : ℕ) : List ℕ :=
  (List.range faces.length).flatMap fun fi =>
    ((faces.getD fi []).filter fun x => x = v).map fun _ => fi

/-- `edgeToFaces[key]`: the faces incident to an edge key, pushed in face-scan
order, one entry per occurrence of the edge in a face. -/
def edgeToFaces (faces : List (List ℕ)) (key : ℕ × ℕ) : List ℕ :=
  (List.range faces.length).flatMap fun fi =>
    ((faceEdges (faces.getD fi [])).filter fun e => canon e = key).map fun _ => fi

/-- The occurring vertex indices, ascending: `Object.keys(vertexToFaces)`
iterates the (integer) keys in ascending numeric order, so the model walks the
distinct occurring indices in increasing order. -/
def occurringVertices (faces : List (List ℕ)) : List ℕ :=
  (List.range (faces.flatten.foldr max 0 + 1)).filter fun v => v ∈ faces.flatten

/-- One search of the inner `for` loops of the ordering walk: the first face
(scanning the current face's vertex-incident edges in order, and each edge's
incident faces in order) that is distinct from the current face, incident to
the vertex, and not yet used. -/
def stepNext (faces : List (List ℕ)) (v : ℕ) (adj ordered : List ℕ) : Option ℕ :=
  let cf := ordered.getLastD 0
  let face := faces.getD cf []
  (List.range face.length).findSome? fun i =>
    if face.getD i 0 = v ∨ face.getD ((i + 1) % face.length) 0 = v then
      (edgeToFaces faces (canon (face.getD i 0, face.getD ((i + 1) % face.length) 0))).find?
        fun nf => nf ≠ cf ∧ nf ∈ adj ∧ ¬ nf ∈ ordered
    else none

/-- One iteration of the ordering walk's `while` body: the shared-edge hop, or
on stall the fallback that appends the first unused incident face. -/
def walkStep (faces : List (List ℕ)) (v : ℕ) (adj ordered : List ℕ) : Option ℕ :=
  match stepNext faces v adj ordered with
  | some f => some f
  | none => adj.find? fun f => ¬ f ∈ ordered

/-- The `while (orderedFaces.length < adjFaces.length)` loop.  The JS `used`
set always holds exactly the elements of `orderedFaces`, so membership in
`ordered` models it.  An iteration that appends nothing leaves the JS state
unchanged, so the JS loop would run forever: the model returns `none`.  With
progress at every iteration, `adj.length` units of fuel are enough. -/
def walkLoop (faces : List (List ℕ)) (v : ℕ) (adj : List ℕ) :
    ℕ → List ℕ → Option (List ℕ)
  | 0, ordered => if ordered.length < adj.length then none else some ordered
  | fuel + 1, ordered =>
    if ordered.length < adj.length then
      match walkStep faces v adj ordered with
      | some f => walkLoop faces v adj fuel (ordered ++ [f])
      | none => none
    else some ordered

/-- Step 4's face ordering for one vertex: start from `adjFaces[0]` and walk. -/
def orderedFacesAround (faces : List (List ℕ)) (v : ℕ) : Option (List ℕ) :=
  let adj := vertexAdj faces v
  walkLoop faces v adj adj.length [adj.headD 0]

/-! #### Newell normal, centroid and the orientation fix-up -/

/-- One Newell term for consecutive polygon points `curr`, `next`. -/
def newellTerm (curr next : Pt) : Pt :=
  ((curr.2.1 - next.2.1) * (curr.2.2 + next.2.2),
   (curr.2.2 - next.2.2) * (curr.1 + next.1),
   (curr.1 - next.1) * (curr.2.1 + next.2.1))

/-- Newell's method over a point cycle, exactly as the code indexes it:
`next = pts[(i+1) % pts.length]`. -/
def newell (pts : List Pt) : Pt :=
  ((List.range pts.length).map fun i =>
    newellTerm (pts.getD i 0) (pts.getD ((i + 1) % pts.length) 0)).sum

/-- Componentwise centroid of a point list (`sum / length`). -/
noncomputable def centroid (pts : List Pt) : Pt :=
  let s := pts.sum
  (s.1 / pts.length, s.2.1 / pts.length, s.2.2 / pts.length)

/-- The points of a dual face: `faceIndices.map(fi => dualVertices[fi])`. -/
def facePoints (dv : List Pt) (faceIndices : List ℕ) : List Pt :=
  faceIndices.map fun fi => dv.getD fi 0

/-- The orientation test value of an index cycle over the dual vertices. -/
noncomputable def newellCentroidDot (pts : List Pt) : ℝ :=
  dot (newell pts) (centroid pts)

/-- The orientation fix-up: reverse the index order when the Newell normal
points toward the origin relative to the centroid. -/
noncomputable def orientFace (dv : List Pt) (faceIndices : List ℕ) : List ℕ :=
  if newellCentroidDot (facePoints dv faceIndices) < 0 then faceIndices.reverse
  else faceIndices

/-- Steps 3–4 of `computeDual`: one dual face per occurring vertex of degree
at least 3; `none` models a diverging ordering walk. -/
noncomputable def dualFacesLoop (vertices : List Pt) (faces : List (List ℕ)) :
    List ℕ → Option (List (List ℕ))
  | [] => some []
  | v :: rest =>
    if (vertexAdj faces v).length < 3 then dualFacesLoop vertices faces rest
    else
      match orderedFacesAround faces v with
      | none => none
      | some ord =>
        match dualFacesLoop vertices faces rest with
        | none => none
        | some restFaces =>
          some (orientFace (dualVertices vertices faces) ord :: restFaces)

/-- Steps 3–4 assembled over all occurring vertices. -/
noncomputable def dualFacesOpt (vertices : List Pt) (faces : List (List ℕ)) :
    Option (List (List ℕ)) :=
  dualFacesLoop vertices faces (occurringVertices faces)

/-! #### Step 5: rescale -/

/-- `origDist = Math.sqrt(dot(vertices[0], vertices[0]))`. -/
noncomputable def origDist (vertices : List Pt) : ℝ := norm3 (vertices.getD 0 0)

/-- `dualDist = Math.sqrt(dot(dualVertices[0], dualVertices[0]))`. -/
noncomputable def dualDist (vertices : List Pt) (faces : List (List ℕ)) : ℝ :=
  norm3 ((dualVertices vertices faces).getD 0 0)

/-- `scaleFactor = origDist / dualDist`. -/
noncomputable def scaleFactor (vertices : List Pt) (faces : List (List ℕ)) : ℝ :=
  origDist vertices / dualDist vertices faces

/-- Step 5: every dual vertex scaled by the single factor. -/
noncomputable def normalizedVertices (vertices : List Pt) (faces : List (List ℕ)) :
    List Pt :=
  (dualVertices vertices faces).map fun p =>
    (p.1 * scaleFactor vertices faces, p.2.1 * scaleFactor vertices faces,
     p.2.2 * scaleFactor vertices faces)

/-- `computeDual(vertices, faces)`.  The guard models the host faults: step 2
dereferences `faceVerts[0..2]` and every `vertices[face[i]]`, so a face of
length `< 3` or an out-of-range index throws; an empty face list throws at
step 5 (`dualVertices[0]`).  `none` also models a diverging ordering walk. -/
noncomputable def computeDual (vertices : List Pt) (faces : List (List ℕ)) :
    Option (List Pt × List (List ℕ)) :=
  if faces ≠ [] ∧ ∀ face ∈ faces, 3 ≤ face.length ∧ ∀ i ∈ face, i < vertices.length then
    (dualFacesOpt vertices faces).map fun dfs => (normalizedVertices vertices faces, dfs)
  else none

/-! ### Geometry builders (src/polyhedra.js; identical in src/unnamed/part_003) -/

/-- The `polygonColors` table: hex color keyed by polygon side count. -/
def polygonColors (sides : ℕ) : Option ℕ :=
  if sides = 3 then some 0xe74c3c
  else if sides = 4 then some 0x3498db
  else if sides = 5 then some 0x2ecc71
  else if sides = 6 then some 0xf39c12
  else if sides = 8 then some 0x9b59b6
  else if sides = 10 then some 0x1abc9c
  else none

/-- The rgb triple of `new THREE.Color(hex)`, modelled at the collaborator's
interface as the three normalized bytes of the hex value.  The claims use
only that each face yields one fixed triple per side count. -/
noncomputable def colorOfHex (hex : ℕ) : Pt :=
  (((hex / 65536) % 256 : ℕ) / 255, ((hex / 256) % 256 : ℕ) / 255, ((hex % 256 : ℕ) : ℝ) / 255)

/-- The color assigned to a face: `polygonColors[sides] || 0x888888`. -/
noncomputable def faceColor (face : List ℕ) : Pt :=
  colorOfHex ((polygonColors face.length).getD 0x888888)

/-- The face normal of `buildColoredGeometry`: normalized cross product of the
first two edge vectors from the face's first vertex. -/
noncomputable def faceNormal (vertices : List Pt) (face : List ℕ) : Pt :=
  let v0 := vertices.getD (face.getD 0 0) 0
  let v1 := vertices.getD (face.getD 1 0) 0
  let v2 := vertices.getD (face.getD 2 0) 0
  normalize (cross (sub v1 v0) (sub v2 v0))

/-- The fan-triangulation vertex positions of one face: for
`i = 1 .. n-2` the triangle `(faceVerts[0], faceVerts[i], faceVerts[i+1])`,
each position's three coordinates scaled by `scale`. -/
def triIndices (face : List ℕ) : List ℕ :=
  (List.range (face.length - 2)).flatMap fun k =>
    [face.getD 0 0, face.getD (k + 1) 0, face.getD (k + 2) 0]

/-- The flattened scaled position floats emitted for one face. -/
noncomputable def facePositions (vertices : List Pt) (scale : ℝ) (face : List ℕ) :
    List ℝ :=
  (triIndices face).flatMap fun vi =>
    let v := vertices.getD vi 0
    [v.1 * scale, v.2.1 * scale, v.2.2 * scale]

/-- The flattened color floats emitted for one face (the face's single color,
once per emitted vertex). -/
noncomputable def faceColorFloats (face : List ℕ) : List ℝ :=
  (triIndices face).flatMap fun _ =>
    [(faceColor face).1, (faceColor face).2.1, (faceColor face).2.2]

/-- The flattened normal floats emitted for one face (the face's single
unscaled unit normal, once per emitted vertex). -/
noncomputable def faceNormalFloats (vertices : List Pt) (face : List ℕ) : List ℝ :=
  (triIndices face).flatMap fun _ =>
    [(faceNormal vertices face).1, (faceNormal vertices face).2.1,
     (faceNormal vertices face).2.2]

/-- `buildColoredGeometry(vertices, faces, scale)`, returning the position,
color and normal buffers.  A face of length `< 3` makes the JS code spread an
`undefined` element of `faceVerts` into `THREE.Vector3`, and an out-of-range
vertex index makes it dereference `undefined`: both throw, modelled as
`none`. -/
noncomputable def buildColoredGeometry (vertices : List Pt) (scale : ℝ) :
    List (List ℕ) → Option (List ℝ × List ℝ × List ℝ)
  | [] => some ([], [], [])
  | face :: rest =>
    if 3 ≤ face.length ∧ ∀ i ∈ face, i < vertices.length then
      (buildColoredGeometry vertices scale rest).map fun pcn =>
        (facePositions vertices scale face ++ pcn.1,
         faceColorFloats face ++ pcn.2.1,
         faceNormalFloats vertices face ++ pcn.2.2)
    else none

/-- The six floats of one emitted edge segment (both endpoints scaled). -/
noncomputable def segmentFloats (vertices : List Pt) (scale : ℝ) (p : ℕ × ℕ) :
    List ℝ :=
  let va := vertices.getD p.1 0
  let vb := vertices.getD p.2 0
  [va.1 * scale, va.2.1 * scale, va.2.2 * scale,
   vb.1 * scale, vb.2.1 * scale, vb.2.2 * scale]

/-- The edge-walking loop of `buildEdgesGeometry` over the stream of wrapped
index pairs: a pair whose canonical key was already seen is skipped without
touching `vertices`; a new pair dereferences both endpoints (throwing when
either is out of range, modelled as `none`) and emits six floats. -/
noncomputable def edgesLoop (vertices : List Pt) (scale : ℝ) (seen : List (ℕ × ℕ)) :
    List (ℕ × ℕ) → Option (List ℝ)
  | [] => some []
  | p :: rest =>
    if canon p ∈ seen then edgesLoop vertices scale seen rest
    else if p.1 < vertices.length ∧ p.2 < vertices.length then
      (edgesLoop vertices scale (canon p :: seen) rest).map
        fun ps => segmentFloats vertices scale p ++ ps
    else none

/-- `buildEdgesGeometry(vertices, faces, scale)`: the flattened endpoint
floats of the deduplicated edge segments. -/
noncomputable def buildEdgesGeometry (vertices : List Pt) (faces : List (List ℕ))
    (scale : ℝ) : Option (List ℝ) :=
  edgesLoop vertices scale [] (wrappedPairs faces)

/-! ### The static catalogue (src/unnamed/part_002) -/

/-- A catalogue record: `{ vertices, faces }` (name and category omitted). -/
structure Poly where
  vertices : List Pt
  faces : List (List ℕ)

/-- The golden ratio `phi` of part_002. -/
noncomputable def phi : ℝ := (1 + Real.sqrt 5) / 2

/-- `normalize(vertices)` of part_002: scale all vertices by the inverse of
the maximum distance from the origin. -/
noncomputable def normalizeVerts (vertices : List Pt) : List Pt :=
  let maxDist := (vertices.map norm3).foldr max 0
  vertices.map fun v => (v.1 / maxDist, v.2.1 / maxDist, v.2.2 / maxDist)

/-- The tetrahedron record. -/
noncomputable def tetrahedron : Poly where
  vertices := normalizeVerts [(1, 1, 1), (1, -1, -1), (-1, 1, -1), (-1, -1, 1)]
  faces := [[0, 1, 2], [0, 3, 1], [0, 2, 3], [1, 3, 2]]

/-- The cube record. -/
noncomputable def cube : Poly where
  vertices := normalizeVerts
    [(-1, -1, -1), (1, -1, -1), (1, 1, -1), (-1, 1, -1),
     (-1, -1, 1), (1, -1, 1), (1, 1, 1), (-1, 1, 1)]
  faces := [[0, 3, 2, 1], [4, 5, 6, 7], [0, 1, 5, 4],
            [2, 3, 7, 6], [0, 4, 7, 3], [1, 2, 6, 5]]

/-- The octahedron record. -/
noncomputable def octahedron : Poly where
  vertices := normalizeVerts
    [(1, 0, 0), (-1, 0, 0), (0, 1, 0), (0, -1, 0), (0, 0, 1), (0, 0, -1)]
  faces := [[0, 2, 4], [0, 4, 3], [0, 3, 5], [0, 5, 2],
            [1, 4, 2], [1, 3, 4], [1, 5, 3], [1, 2, 5]]

/-- The dodecahedron record. -/
noncomputable def dodecahedron : Poly where
  vertices := normalizeVerts
    [(1, 1, 1), (1, 1, -1), (1, -1, 1), (1, -1, -1),
     (-1, 1, 1), (-1, 1, -1), (-1, -1, 1), (-1, -1, -1),
     (0, 1 / phi, phi), (0, 1 / phi, -phi), (0, -1 / phi, phi), (0, -1 / phi, -phi),
     (1 / phi, phi, 0), (-1 / phi, phi, 0), (1 / phi, -phi, 0), (-1 / phi, -phi, 0),
     (phi, 0, 1 / phi), (phi, 0, -1 / phi), (-phi, 0, 1 / phi), (-phi, 0, -1 / phi)]
  faces := [[0, 16, 2, 10, 8], [0, 8, 4, 13, 12], [0, 12, 1, 17, 16],
            [8, 10, 6, 18, 4], [2, 16, 17, 3, 14], [10, 2, 14, 15, 6],
            [1, 12, 13, 5, 9], [4, 18, 19, 5, 13], [17, 1, 9, 11, 3],
            [6, 15, 7, 19, 18], [3, 11, 7, 15, 14], [5, 19, 7, 11, 9]]

/-- The icosahedron record. -/
noncomputable def icosahedron : Poly where
  vertices := normalizeVerts
    [(0, 1, phi), (0, 1, -phi), (0, -1, phi), (0, -1, -phi),
     (1, phi, 0), (1, -phi, 0), (-1, phi, 0), (-1, -phi, 0),
     (phi, 0, 1), (phi, 0, -1), (-phi, 0, 1), (-phi, 0, -1)]
  faces := [[0, 2, 8], [0, 8, 4], [0, 4, 6], [0, 6, 10], [0, 10, 2],
            [2, 5, 8], [8, 9, 4], [4, 1, 6], [6, 11, 10], [10, 7, 2],
            [5, 2, 7], [9, 8, 5], [1, 4, 9], [11, 6, 1], [7, 10, 11],
            [3, 5, 7], [3, 9, 5], [3, 1, 9], [3, 11, 1], [3, 7, 11]]

/-- The cuboctahedron record. -/
noncomputable def cuboctahedron : Poly where
  vertices := normalizeVerts
    [(1, 1, 0), (1, -1, 0), (-1, 1, 0), (-1, -1, 0),
     (1, 0, 1), (1, 0, -1), (-1, 0, 1), (-1, 0, -1),
     (0, 1, 1), (0, 1, -1), (0, -1, 1), (0, -1, -1)]
  faces := [[0, 4, 8], [0, 9, 5], [2, 8, 6], [2, 7, 9],
            [1, 10, 4], [1, 5, 11], [3, 6, 10], [3, 11, 7],
            [0, 8, 2, 9], [1, 11, 3, 10], [4, 10, 6, 8],
            [5, 9, 7, 11], [0, 5, 1, 4], [2, 6, 3, 7]]

/-- The truncated tetrahedron record (face data omitted: convex-hull fallback). -/
noncomputable def truncatedTetrahedron : Poly where
  vertices := normalizeVerts
    [(3, 1, 1), (1, 3, 1), (1, 1, 3),
     (-3, -1, 1), (-1, -3, 1), (-1, -1, 3),
     (-3, 1, -1), (-1, 3, -1), (-1, 1, -3),
     (3, -1, -1), (1, -3, -1), (1, -1, -3)]
  faces := []

/-- The truncated octahedron record (convex-hull fallback). -/
noncomputable def truncatedOctahedron : Poly where
  vertices := normalizeVerts
    [(0, 1, 2), (0, 2, 1), (1, 0, 2), (2, 0, 1),
     (1, 2, 0), (2, 1, 0), (0, -1, 2), (0, -2, 1),
     (-1, 0, 2), (-2, 0, 1), (-1, 2, 0), (-2, 1, 0),
     (0, 1, -2), (0, 2, -1), (1, 0, -2), (2, 0, -1),
     (1, -2, 0), (2, -1, 0), (0, -1, -2), (0, -2, -1),
     (-1, 0, -2), (-2, 0, -1), (-1, -2, 0), (-2, -1, 0)]
  faces := []

/-- `rho = 1 + Math.SQRT2`. -/
noncomputable def rho : ℝ := 1 + Real.sqrt 2

/-- The rhombicuboctahedron record (convex-hull fallback). -/
noncomputable def rhombicuboctahedron : Poly where
  vertices := normalizeVerts
    [(1, 1, rho), (1, 1, -rho), (-1, 1, rho), (-1, 1, -rho),
     (1, -1, rho), (1, -1, -rho), (-1, -1, rho), (-1, -1, -rho),
     (1, rho, 1), (1, rho, -1), (-1, rho, 1), (-1, rho, -1),
     (1, -rho, 1), (1, -rho, -1), (-1, -rho, 1), (-1, -rho, -1),
     (rho, 1, 1), (rho, 1, -1), (-rho, 1, 1), (-rho, 1, -1),
     (rho, -1, 1), (rho, -1, -1), (-rho, -1, 1), (-rho, -1, -1)]
  faces := []

/-- The truncated icosahedron record (convex-hull fallback). -/
noncomputable def truncatedIcosahedron : Poly where
  vertices := normalizeVerts
    [(0, 1, 3 * phi), (0, 1, -3 * phi), (0, -1, 3 * phi), (0, -1, -3 * phi),
     (1, 3 * phi, 0), (-1, 3 * phi, 0), (1, -3 * phi, 0), (-1, -3 * phi, 0),
     (3 * phi, 0, 1), (3 * phi, 0, -1), (-3 * phi, 0, 1), (-3 * phi, 0, -1),
     (2, 1 + 2 * phi, phi), (2, 1 + 2 * phi, -phi), (-2, 1 + 2 * phi, phi),
     (-2, 1 + 2 * phi, -phi),
     (2, -(1 + 2 * phi), phi), (2, -(1 + 2 * phi), -phi), (-2, -(1 + 2 * phi), phi),
     (-2, -(1 + 2 * phi), -phi),
     (phi, 2, 1 + 2 * phi), (phi, 2, -(1 + 2 * phi)), (-phi, 2, 1 + 2 * phi),
     (-phi, 2, -(1 + 2 * phi)),
     (phi, -2, 1 + 2 * phi), (phi, -2, -(1 + 2 * phi)), (-phi, -2, 1 + 2 * phi),
     (-phi, -2, -(1 + 2 * phi)),
     (1 + 2 * phi, phi, 2), (1 + 2 * phi, phi, -2), (-(1 + 2 * phi), phi, 2),
     (-(1 + 2 * phi), phi, -2),
     (1 + 2 * phi, -phi, 2), (1 + 2 * phi, -phi, -2), (-(1 + 2 * phi), -phi, 2),
     (-(1 + 2 * phi), -phi, -2),
     (1, 2 + phi, 2 * phi), (1, 2 + phi, -2 * phi), (-1, 2 + phi, 2 * phi),
     (-1, 2 + phi, -2 * phi),
     (1, -(2 + phi), 2 * phi), (1, -(2 + phi), -2 * phi), (-1, -(2 + phi), 2 * phi),
     (-1, -(2 + phi), -2 * phi),
     (2 * phi, 1, 2 + phi), (2 * phi, 1, -(2 + phi)), (-2 * phi, 1, 2 + phi),
     (-2 * phi, 1, -(2 + phi)),
     (2 * phi, -1, 2 + phi), (2 * phi, -1, -(2 + phi)), (-2 * phi, -1, 2 + phi),
     (-2 * phi, -1, -(2 + phi)),
     (2 + phi, 2 * phi, 1), (2 + phi, 2 * phi, -1), (-(2 + phi), 2 * phi, 1),
     (-(2 + phi), 2 * phi, -1),
     (2 + phi, -2 * phi, 1), (2 + phi, -2 * phi, -1), (-(2 + phi), -2 * phi, 1),
     (-(2 + phi), -2 * phi, -1)]
  faces := []

/-- The icosidodecahedron record (convex-hull fallback). -/
noncomputable def icosidodecahedron : Poly where
  vertices := normalizeVerts
    [(0, 0, phi), (0, 0, -phi),
     (phi, 0, 0), (-phi, 0, 0),
     (0, phi, 0), (0, -phi, 0),
     (0.5, phi / 2, (1 + phi) / 2), (-0.5, phi / 2, (1 + phi) / 2),
     (0.5, -phi / 2, (1 + phi) / 2), (-0.5, -phi / 2, (1 + phi) / 2),
     (0.5, phi / 2, -((1 + phi) / 2)), (-0.5, phi / 2, -((1 + phi) / 2)),
     (0.5, -phi / 2, -((1 + phi) / 2)), (-0.5, -phi / 2, -((1 + phi) / 2)),
     ((1 + phi) / 2, 0.5, phi / 2), ((1 + phi) / 2, -0.5, phi / 2),
     (-((1 + phi) / 2), 0.5, phi / 2), (-((1 + phi) / 2), -0.5, phi / 2),
     ((1 + phi) / 2, 0.5, -(phi / 2)), ((1 + phi) / 2, -0.5, -(phi / 2)),
     (-((1 + phi) / 2), 0.5, -(phi / 2)), (-((1 + phi) / 2), -0.5, -(phi / 2)),
     (phi / 2, (1 + phi) / 2, 0.5), (phi / 2, (1 + phi) / 2, -0.5),
     (-(phi / 2), (1 + phi) / 2, 0.5), (-(phi / 2), (1 + phi) / 2, -0.5),
     (phi / 2, -((1 + phi) / 2), 0.5), (phi / 2, -((1 + phi) / 2), -0.5),
     (-(phi / 2), -((1 + phi) / 2), 0.5), (-(phi / 2), -((1 + phi) / 2), -0.5)]
  faces := []

/-- The tribonacci constant literal of part_002. -/
noncomputable def tribonacci : ℝ := 1.8392867552141612

/-- The snub-cube vertex generation: signed permutations with the stated
parity constraints, in loop order (signs modelled as the exact JS numbers
`1`/`-1`, as integers mapped into the coordinates). -/
noncomputable def snubCubeVerts : List Pt :=
  (([(1, 1 / tribonacci, tribonacci), (1 / tribonacci, tribonacci, 1),
     (tribonacci, 1, 1 / tribonacci)] : List Pt).flatMap fun perm =>
    ([1, -1] : List ℤ).flatMap fun s1 =>
      ([1, -1] : List ℤ).flatMap fun s2 =>
        ([1, -1] : List ℤ).flatMap fun s3 =>
          if s1 * s2 * s3 = 1 then
            [((s1 : ℝ) * perm.1, (s2 : ℝ) * perm.2.1, (s3 : ℝ) * perm.2.2)]
          else []) ++
  (([(1 / tribonacci, 1, tribonacci), (tribonacci, 1 / tribonacci, 1),
     (1, tribonacci, 1 / tribonacci)] : List Pt).flatMap fun perm =>
    ([1, -1] : List ℤ).flatMap fun s1 =>
      ([1, -1] : List ℤ).flatMap fun s2 =>
        ([1, -1] : List ℤ).flatMap fun s3 =>
          if s1 * s2 * s3 = -1 then
            [((s1 : ℝ) * perm.1, (s2 : ℝ) * perm.2.1, (s3 : ℝ) * perm.2.2)]
          else [])

/-- The snub cube record (convex-hull fallback). -/
noncomputable def snubCube : Poly where
  vertices := normalizeVerts snubCubeVerts
  faces := []

/-- The exported catalogue of part_002, in export order. -/
noncomputable def catalogue : List Poly :=
  [tetrahedron, cube, octahedron, dodecahedron, icosahedron,
   truncatedTetrahedron, cuboctahedron, truncatedOctahedron,
   rhombicuboctahedron, snubCube, icosidodecahedron, truncatedIcosahedron]

/-! ### Deduplication lemmas -/

lemma dedupEdges_canon_spec (l : List (ℕ × ℕ)) :
    ∀ seen : List (ℕ × ℕ), ((dedupEdges seen l).map canon).Nodup ∧
      (∀ k ∈ (dedupEdges seen l).map canon, ¬ k ∈ seen) ∧
      ((dedupEdges seen l).map canon).toFinset = (l.map canon).toFinset \ seen.toFinset := by
  induction l with
  | nil => intro seen; simp [dedupEdges]
  | cons p rest ih =>
    intro seen
    by_cases hp : canon p ∈ seen
    · obtain ⟨h1, h2, h3⟩ := ih seen
      refine ⟨by simpa [dedupEdges, hp] using h1,
              by simpa [dedupEdges, hp] using h2, ?_⟩
      have : (dedupEdges seen (p :: rest)) = dedupEdges seen rest := by
        simp [dedupEdges, hp]
      rw [this, h3]
      ext x
      simp only [List.map_cons, List.toFinset_cons, Finset.mem_sdiff, Finset.mem_insert,
        List.mem_toFinset]
      constructor
      · rintro ⟨hx, hxs⟩; exact ⟨Or.inr hx, hxs⟩
      · rintro ⟨hx | hx, hxs⟩
        · exact absurd (by rw [hx]; exact hp) hxs
        · exact ⟨hx, hxs⟩
    · obtain ⟨h1, h2, h3⟩ := ih (canon p :: seen)
      have hd : dedupEdges seen (p :: rest) = p :: dedupEdges (canon p :: seen) rest := by
        simp [dedupEdges, hp]
      refine ⟨?_, ?_, ?_⟩
      · rw [hd, List.map_cons, List.nodup_cons]
        exact ⟨fun hmem => (h2 _ hmem) (List.mem_cons_self _ _), h1⟩
      · rw [hd, List.map_cons]
        intro k hk
        rcases List.mem_cons.mp hk with hk | hk
        · exact hk ▸ hp
        · exact fun hks => (h2 _ hk) (List.mem_cons_of_mem _ hks)
      · rw [hd, List.map_cons, List.toFinset_cons, h3]
        ext x
        simp only [Finset.mem_insert, Finset.mem_sdiff, List.mem_toFinset, List.map_cons,
          List.toFinset_cons, List.mem_cons]
        constructor
        · rintro (rfl | ⟨hx, hxs⟩)
          · exact ⟨Or.inl rfl, hp⟩
          · exact ⟨Or.inr hx, fun hs => hxs (Or.inr hs)⟩
        · rintro ⟨rfl | hx, hxs⟩
          · exact Or.inl rfl
          · by_cases hxc : x = canon p
            · exact Or.inl hxc
            · exact Or.inr ⟨hx, fun hs => hs.elim hxc hxs⟩

lemma uniqueEdges_canon_nodup (faces : List (List ℕ)) :
    ((uniqueEdges faces).map canon).Nodup :=
  (dedupEdges_canon_spec (wrappedPairs faces) []).1

lemma uniqueEdges_canon_toFinset (faces : List (List ℕ)) :
    ((uniqueEdges faces).map canon).toFinset = edgeFinset faces := by
  have h := (dedupEdges_canon_spec (wrappedPairs faces) []).2.2
  simpa [edgeFinset, uniqueEdges] using h

lemma uniqueEdges_length (faces : List (List ℕ)) :
    (uniqueEdges faces).length = (edgeFinset faces).card := by
  rw [← uniqueEdges_canon_toFinset, List.toFinset_card_of_nodup (uniqueEdges_canon_nodup faces),
    List.length_map]

/-- The edge-midpoint distance does not depend on the endpoint order. -/
lemma midDist_canon (vertices : List Pt) (p : ℕ × ℕ) :
    midDist vertices (canon p) = midDist vertices p := by
  unfold canon
  split
  · rfl
  · simp only [midDist]
    congr 1
    simp only [dot]
    ring

/-! ### C1: the reciprocation step -/

/-- Specification-side midsphere radius squared: the square of the average
distance from the origin of the midpoints of the distinct unordered edges,
each counted exactly once. -/
noncomputable def specMidsphereR2 (vertices : List Pt) (faces : List (List ℕ)) : ℝ :=
  ((edgeFinset faces).sum (midDist vertices) / ((edgeFinset faces).card : ℝ)) ^ 2

lemma midsphereR2_eq_spec (vertices : List Pt) (faces : List (List ℕ)) :
    midsphereR2 vertices faces = specMidsphereR2 vertices faces := by
  unfold midsphereR2 specMidsphereR2
  rw [uniqueEdges_length]
  congr 2
  rw [← uniqueEdges_canon_toFinset,
    List.sum_toFinset _ (uniqueEdges_canon_nodup faces), List.map_map]
  exact (List.map_congr_left fun p _ => (midDist_canon vertices p)).symm ▸ rfl

/-- Specification-side reciprocation vertex, written as the claim states it:
the unit normal scaled by the single scalar `(r² / d) * sign`. -/
noncomputable def specDualVertexOfFace (vertices : List Pt) (r2 : ℝ) (face : List ℕ) :
    Pt :=
  let v0 := vertices.getD (face.getD 0 0) 0
  let v1 := vertices.getD (face.getD 1 0) 0
  let v2 := vertices.getD (face.getD 2 0) 0
  let normal := normalize (cross (sub v1 v0) (sub v2 v0))
  let d := |dot v0 normal|
  let csum : Pt := (face.map fun i => vertices.getD i 0).sum
  let centroid : Pt := (csum.1 / face.length, csum.2.1 / face.length, csum.2.2 / face.length)
  let sgn : ℝ := if 0 < dot centroid normal then 1 else -1
  (r2 / d * sgn * normal.1, r2 / d * sgn * normal.2.1, r2 / d * sgn * normal.2.2)

lemma dualVertexOfFace_eq_spec (vertices : List Pt) (r2 : ℝ) (face : List ℕ) :
    dualVertexOfFace vertices r2 face = specDualVertexOfFace vertices r2 face := by
  simp only [dualVertexOfFace, specDualVertexOfFace]
  refine Prod.ext (by ring) (Prod.ext (by ring) (by ring))

/-- C1: for every input with at least one face, the reciprocation step of
`computeDual` produces exactly one dual vertex per original face, equal to the
face's unit normal (normalized cross product of the first two edge vectors
from its first vertex) scaled by `(r² / d) * sign`, where `d` is the absolute
distance from the origin to the face plane, `sign` is `+1` when the face
centroid dotted with the normal is positive and `-1` otherwise, and `r²` is
the square of the average origin distance of the midpoints of the solid's
unique edges, each unordered edge counted exactly once. -/
theorem dualVertices_polar_reciprocation (vertices : List Pt) (faces : List (List ℕ))
    (_h : faces ≠ []) :
    (dualVertices vertices faces).length = faces.length ∧
    dualVertices vertices faces =
      faces.map (specDualVertexOfFace vertices (specMidsphereR2 vertices faces)) := by
  constructor
  · exact List.length_map _ _
  · unfold dualVertices
    rw [midsphereR2_eq_spec]
    exact List.map_congr_left fun face _ => dualVertexOfFace_eq_spec _ _ _

/-! ### C6: edge emission and deduplication -/

lemma mem_faceEdges (face : List ℕ) (p : ℕ × ℕ) (hp : p ∈ faceEdges face) :
    p.1 ∈ face ∧ p.2 ∈ face := by
  simp only [faceEdges, List.mem_map, List.mem_range] at hp
  obtain ⟨i, hi, rfl⟩ := hp
  have hpos : 0 < face.length := Nat.zero_lt_of_lt hi
  constructor
  · rw [List.getD_eq_getElem _ _ hi]
    exact List.getElem_mem _
  · have hmod : (i + 1) % face.length < face.length := Nat.mod_lt _ hpos
    rw [List.getD_eq_getElem _ _ hmod]
    exact List.getElem_mem _

lemma edgesLoop_eq (vertices : List Pt) (scale : ℝ) :
    ∀ (l : List (ℕ × ℕ)) (seen : List (ℕ × ℕ)),
      (∀ p ∈ l, p.1 < vertices.length ∧ p.2 < vertices.length) →
      edgesLoop vertices scale seen l =
        some ((dedupEdges seen l).flatMap (segmentFloats vertices scale)) := by
  intro l
  induction l with
  | nil => intro seen _; simp [edgesLoop, dedupEdges]
  | cons p rest ih =>
    intro seen h
    by_cases hp : canon p ∈ seen
    · have h' := ih seen fun q hq => h q (List.mem_cons_of_mem _ hq)
      simp [edgesLoop, dedupEdges, hp, h']
    · have hin := h p (List.mem_cons_self _ _)
      have h' := ih (canon p :: seen) fun q hq => h q (List.mem_cons_of_mem _ hq)
      simp [edgesLoop, dedupEdges, hp, hin.1, hin.2, h']

/-- C6: `buildEdgesGeometry` emits each unique undirected edge exactly once:
its output is the six endpoint floats of the unique edges in first-encounter
order, and the number of emitted segments equals the number of distinct
unordered wrapped adjacent-index pairs (6 floats per segment). -/
theorem buildEdges_unique_segments (vertices : List Pt) (faces : List (List ℕ))
    (scale : ℝ) (h : ∀ face ∈ faces, ∀ i ∈ face, i < vertices.length) :
    buildEdgesGeometry vertices faces scale =
      some ((uniqueEdges faces).flatMap (segmentFloats vertices scale)) ∧
    ((uniqueEdges faces).flatMap (segmentFloats vertices scale)).length =
      6 * (edgeFinset faces).card := by
  constructor
  · apply edgesLoop_eq
    intro p hp
    simp only [wrappedPairs, List.mem_flatMap] at hp
    obtain ⟨face, hface, hpe⟩ := hp
    have hm := mem_faceEdges face p hpe
    exact ⟨h face hface _ hm.1, h face hface _ hm.2⟩
  · rw [List.length_flatMap]
    have h6 : List.map (List.length ∘ segmentFloats vertices scale) (uniqueEdges faces) =
        List.map (fun _ => 6) (uniqueEdges faces) :=
      List.map_congr_left fun p _ => rfl
    rw [h6, List.map_const', List.sum_replicate, smul_eq_mul, ← uniqueEdges_length]
    exact Nat.mul_comm _ _

/-! ### C8: out-of-range face indices fault -/

/-- C8: `buildColoredGeometry` has no handled error conditions: whenever some
face contains a vertex index outside `[0, vertices.length)`, the call faults
(the JS code dereferences `undefined` and throws) instead of returning a
result. -/
theorem buildColored_bad_index_faults (vertices : List Pt) (scale : ℝ)
    (faces : List (List ℕ))
    (h : ∃ face ∈ faces, ∃ i ∈ face, vertices.length ≤ i) :
    buildColoredGeometry vertices scale faces = none := by
  induction faces with
  | nil => simp at h
  | cons face rest ih =>
    obtain ⟨f, hf, i, hi, hlen⟩ := h
    rcases List.mem_cons.mp hf with rfl | hf
    · have hbad : ¬ (3 ≤ f.length ∧ ∀ j ∈ f, j < vertices.length) := by
        rintro ⟨-, hall⟩
        exact absurd (hall i hi) (not_lt.mpr hlen)
      simp [buildColoredGeometry, hbad]
    · by_cases hg : 3 ≤ face.length ∧ ∀ j ∈ face, j < vertices.length
      · simp [buildColoredGeometry, hg, ih ⟨f, hf, i, hi, hlen⟩]
      · simp [buildColoredGeometry, hg]

/-! ### C5: fan triangulation -/

/-- Specification-side fan floats of one face: for `i ∈ [1, n-2]` the triangle
`(v0, vi, vi+1)`, each position's coordinates multiplied by `scale`. -/
noncomputable def specFanFloats (vertices : List Pt) (scale : ℝ) (face : List ℕ) :
    List ℝ :=
  (List.range (face.length - 2)).flatMap fun k =>
    ([face.getD 0 0, face.getD (k + 1) 0, face.getD (k + 2) 0]).flatMap fun vi =>
      let v := vertices.getD vi 0
      [v.1 * scale, v.2.1 * scale, v.2.2 * scale]

lemma facePositions_eq_specFan (vertices : List Pt) (scale : ℝ) (face : List ℕ) :
    facePositions vertices scale face = specFanFloats vertices scale face := by
  unfold facePositions triIndices specFanFloats
  exact List.flatMap_assoc _ _ _

lemma triIndices_length (face : List ℕ) :
    (triIndices face).length = 3 * (face.length - 2) := by
  unfold triIndices
  rw [List.length_flatMap]
  have h3 : List.map (List.length ∘ fun k => [face.getD 0 0, face.getD (k + 1) 0,
      face.getD (k + 2) 0]) (List.range (face.length - 2)) =
      List.map (fun _ => 3) (List.range (face.length - 2)) :=
    List.map_congr_left fun k _ => rfl
  rw [h3, List.map_const', List.sum_replicate, smul_eq_mul, List.length_range]
  exact Nat.mul_comm _ _

lemma flatMap_const_list {α β : Type} (l : List α) (b : List β) :
    (l.flatMap fun _ => b) = (List.replicate l.length b).flatten := by
  induction l with
  | nil => simp
  | cons x t ih => simp [ih, List.replicate_succ]

lemma faceColorFloats_repeat (face : List ℕ) :
    faceColorFloats face =
      (List.replicate (3 * (face.length - 2)) (faceColor face)).flatMap
        fun c => [c.1, c.2.1, c.2.2] := by
  unfold faceColorFloats
  rw [flatMap_const_list, triIndices_length, List.flatMap_def, List.map_replicate]

lemma faceNormalFloats_repeat (vertices : List Pt) (face : List ℕ) :
    faceNormalFloats vertices face =
      (List.replicate (3 * (face.length - 2)) (faceNormal vertices face)).flatMap
        fun c => [c.1, c.2.1, c.2.2] := by
  unfold faceNormalFloats
  rw [flatMap_const_list, triIndices_length, List.flatMap_def, List.map_replicate]

lemma specFanFloats_length (vertices : List Pt) (scale : ℝ) (face : List ℕ) :
    (specFanFloats vertices scale face).length = 9 * (face.length - 2) := by
  rw [← facePositions_eq_specFan]
  unfold facePositions
  rw [List.length_flatMap]
  have h3 : List.map (List.length ∘ fun vi =>
      let v := vertices.getD vi 0
      [v.1 * scale, v.2.1 * scale, v.2.2 * scale]) (triIndices face) =
      List.map (fun _ => 3) (triIndices face) :=
    List.map_congr_left fun vi _ => rfl
  rw [h3, List.map_const', List.sum_replicate, smul_eq_mul, triIndices_length]
  ring

/-- C5: for faces of length at least 3 (with in-range indices, the host-fault
precondition), `buildColoredGeometry` emits per face exactly the `n - 2` fan
triangles `(v0, vi, vi+1)` for `i ∈ [1, n-2]`, every position scaled by
`scale`, so the position buffer holds exactly `9 * Σ (n_f - 2)` floats, and
the face's single color and single normal are repeated for each of the
`3 * (n_f - 2)` emitted vertices of that face. -/
theorem buildColored_fan_triangulation (vertices : List Pt) (scale : ℝ)
    (faces : List (List ℕ))
    (h : ∀ face ∈ faces, 3 ≤ face.length ∧ ∀ i ∈ face, i < vertices.length) :
    buildColoredGeometry vertices scale faces =
      some (faces.flatMap (specFanFloats vertices scale),
        faces.flatMap fun face =>
          (List.replicate (3 * (face.length - 2)) (faceColor face)).flatMap
            fun c => [c.1, c.2.1, c.2.2],
        faces.flatMap fun face =>
          (List.replicate (3 * (face.length - 2)) (faceNormal vertices face)).flatMap
            fun c => [c.1, c.2.1, c.2.2]) ∧
    (faces.flatMap (specFanFloats vertices scale)).length =
      9 * (faces.map fun face => face.length - 2).sum := by
  constructor
  · induction faces with
    | nil => simp [buildColoredGeometry]
    | cons face rest ih =>
      have hface := h face (List.mem_cons_self _ _)
      have hrest := ih fun f hf => h f (List.mem_cons_of_mem _ hf)
      simp only [buildColoredGeometry, if_pos hface, hrest, Option.map_some',
        List.flatMap_cons]
      rw [facePositions_eq_specFan, faceColorFloats_repeat, faceNormalFloats_repeat]
  · rw [List.length_flatMap]
    have h9 : List.map (List.length ∘ specFanFloats vertices scale) faces =
        List.map (fun face => 9 * (face.length - 2)) faces :=
      List.map_congr_left fun face _ => specFanFloats_length vertices scale face
    rw [h9]
    have hmul : ∀ L : List (List ℕ),
        (L.map fun face => 9 * (face.length - 2)).sum =
          9 * (L.map fun face => face.length - 2).sum := by
      intro L
      induction L with
      | nil => simp
      | cons f t iht => simp [iht, Nat.mul_add]
    exact hmul faces

/-! ### C4: determinism -/

/-- C4: `computeDual` is a pure, deterministic function of its input: equal
inputs give equal outputs (the embedding carries no hidden state; aliasing of
host arrays is outside a shallow embedding and is discussed in the results). -/
theorem computeDual_deterministic (v₁ v₂ : List Pt) (f₁ f₂ : List (List ℕ))
    (hv : v₁ = v₂) (hf : f₁ = f₂) :
    computeDual v₁ f₁ = computeDual v₂ f₂ := by
  subst hv; subst hf; rfl

/-! ### C10: the face-ordering walk terminates with a permutation -/

lemma flatMap_if_singleton {α : Type} (l : List α) (p : α → Prop) [DecidablePred p] :
    (l.flatMap fun x => if p x then [x] else []) = l.filter fun x => p x := by
  induction l with
  | nil => rfl
  | cons x t ih => by_cases hx : p x <;> simp [List.filter_cons, hx, ih]

lemma filter_eq_single_of_nodup (l : List ℕ) (hl : l.Nodup) (v : ℕ) :
    (l.filter fun x => x = v) = if v ∈ l then [v] else [] := by
  induction l with
  | nil => simp
  | cons x t ih =>
    rw [List.nodup_cons] at hl
    by_cases hx : x = v
    · have hvt : v ∉ t := hx ▸ hl.1
      simp [List.filter_cons, hx, ih hl.2, hvt]
    · have hvx : ¬ v = x := fun h => hx h.symm
      simp [List.filter_cons, hx, ih hl.2, hvx]

lemma vertexAdj_eq_filter (faces : List (List ℕ)) (v : ℕ)
    (h : ∀ face ∈ faces, face.Nodup) :
    vertexAdj faces v =
      (List.range faces.length).filter fun fi => v ∈ faces.getD fi [] := by
  unfold vertexAdj
  rw [← flatMap_if_singleton (List.range faces.length) fun fi => v ∈ faces.getD fi []]
  apply List.flatMap_congr
  intro fi hfi
  rw [List.mem_range] at hfi
  have hnd : (faces.getD fi []).Nodup := by
    rw [List.getD_eq_getElem _ _ hfi]
    exact h _ (List.getElem_mem _)
  rw [filter_eq_single_of_nodup _ hnd v]
  split <;> rfl

lemma vertexAdj_nodup (faces : List (List ℕ)) (v : ℕ)
    (h : ∀ face ∈ faces, face.Nodup) : (vertexAdj faces v).Nodup := by
  rw [vertexAdj_eq_filter faces v h]
  exact List.Nodup.filter _ (List.nodup_range _)

lemma vertexAdj_mem_lt (faces : List (List ℕ)) (v fi : ℕ)
    (h : fi ∈ vertexAdj faces v) : fi < faces.length := by
  unfold vertexAdj at h
  simp only [List.mem_flatMap, List.mem_range, List.mem_map] at h
  obtain ⟨a, ha, -, -, rfl⟩ := h
  exact ha

lemma walkStep_some_props (faces : List (List ℕ)) (v : ℕ) (adj ordered : List ℕ)
    (f : ℕ) (h : walkStep faces v adj ordered = some f) :
    f ∈ adj ∧ ¬ f ∈ ordered := by
  unfold walkStep at h
  cases hs : stepNext faces v adj ordered with
  | some g =>
    rw [hs] at h
    injection h with hgf
    subst hgf
    unfold stepNext at hs
    obtain ⟨i, -, hfind⟩ := List.exists_of_findSome?_eq_some hs
    split at hfind
    · have := List.find?_some hfind
      simp only [decide_eq_true_eq] at this
      exact ⟨this.2.1, this.2.2⟩
    · cases hfind
  | none =>
    rw [hs] at h
    refine ⟨List.mem_of_find?_eq_some h, ?_⟩
    have := List.find?_some h
    simpa using this

lemma perm_of_nodup_subset_length (adj ordered : List ℕ) (hadj : adj.Nodup)
    (hnd : ordered.Nodup) (hsub : ∀ x ∈ ordered, x ∈ adj)
    (hge : adj.length ≤ ordered.length) : ordered.Perm adj := by
  have hsubf : ordered.toFinset ⊆ adj.toFinset := fun x hx =>
    List.mem_toFinset.mpr (hsub x (List.mem_toFinset.mp hx))
  have heq : ordered.toFinset = adj.toFinset := by
    apply Finset.eq_of_subset_of_card_le hsubf
    rw [List.toFinset_card_of_nodup hadj, List.toFinset_card_of_nodup hnd]
    exact hge
  exact List.perm_of_nodup_nodup_toFinset_eq hnd hadj heq

lemma walkLoop_some_perm (faces : List (List ℕ)) (v : ℕ) (adj : List ℕ)
    (hadj : adj.Nodup) :
    ∀ (fuel : ℕ) (ordered : List ℕ), ordered.Nodup →
      (∀ x ∈ ordered, x ∈ adj) → adj.length ≤ ordered.length + fuel →
      ∃ out, walkLoop faces v adj fuel ordered = some out ∧ out.Perm adj := by
  intro fuel
  induction fuel with
  | zero =>
    intro ordered hnd hsub hlen
    have hge : ¬ ordered.length < adj.length := by omega
    exact ⟨ordered, by simp [walkLoop, hge],
      perm_of_nodup_subset_length adj ordered hadj hnd hsub (by omega)⟩
  | succ fuel ih =>
    intro ordered hnd hsub hlen
    by_cases hlt : ordered.length < adj.length
    · cases hstep : walkStep faces v adj ordered with
      | none =>
        exfalso
        unfold walkStep at hstep
        cases hsn : stepNext faces v adj ordered with
        | some g => rw [hsn] at hstep; cases hstep
        | none =>
          rw [hsn] at hstep
          have hall : ∀ x ∈ adj, x ∈ ordered := by
            intro x hx
            have hnx := List.find?_eq_none.mp hstep x hx
            simpa using hnx
          have hsubf : adj.toFinset ⊆ ordered.toFinset := fun x hx =>
            List.mem_toFinset.mpr (hall x (List.mem_toFinset.mp hx))
          have h1 : adj.toFinset.card = adj.length := List.toFinset_card_of_nodup hadj
          have h2 : ordered.toFinset.card = ordered.length := List.toFinset_card_of_nodup hnd
          have hc := Finset.card_le_card hsubf
          omega
      | some f =>
        obtain ⟨hfadj, hford⟩ := walkStep_some_props faces v adj ordered f hstep
        have hdisj : ordered.Disjoint [f] := by
          intro x hx hxf
          rw [List.mem_singleton] at hxf
          exact hford (hxf ▸ hx)
        have hnd' : (ordered ++ [f]).Nodup :=
          List.nodup_append.mpr ⟨hnd, List.nodup_singleton f, hdisj⟩
        have hsub' : ∀ x ∈ ordered ++ [f], x ∈ adj := by
          intro x hx
          rcases List.mem_append.mp hx with hx | hx
          · exact hsub x hx
          · rw [List.mem_singleton.mp hx]
            exact hfadj
        have hlen' : adj.length ≤ (ordered ++ [f]).length + fuel := by
          rw [List.length_append, List.length_singleton]
          omega
        obtain ⟨out, hout, hperm⟩ := ih (ordered ++ [f]) hnd' hsub' hlen'
        refine ⟨out, ?_, hperm⟩
        rw [walkLoop, if_pos hlt, hstep]
        exact hout
    · refine ⟨ordered, ?_, perm_of_nodup_subset_length adj ordered hadj hnd hsub (by omega)⟩
      rw [walkLoop, if_neg hlt]

lemma orderedFacesAround_perm (faces : List (List ℕ)) (v : ℕ)
    (h : ∀ face ∈ faces, face.Nodup) (h3 : 3 ≤ (vertexAdj faces v).length) :
    ∃ out, orderedFacesAround faces v = some out ∧ out.Perm (vertexAdj faces v) := by
  unfold orderedFacesAround
  have hadj := vertexAdj_nodup faces v h
  cases hl : vertexAdj faces v with
  | nil => rw [hl] at h3; simp at h3
  | cons a t =>
    apply walkLoop_some_perm faces v (a :: t) (hl ▸ hadj)
    · exact List.nodup_singleton _
    · intro x hx
      rw [List.mem_singleton.mp hx]
      simp
    · simp

/-- C10: when no face lists the same vertex index twice, the face-ordering
loop of `computeDual` terminates and produces a dual face that lists each
incident face index exactly once: a permutation of the vertex's incident-face
list, with no duplicates, of length equal to the vertex's degree, every index
a valid index into the dual vertex list. -/
theorem dualFace_walk_terminates (faces : List (List ℕ)) (v : ℕ)
    (hnd : ∀ face ∈ faces, face.Nodup) (h3 : 3 ≤ (vertexAdj faces v).length) :
    ∃ out, orderedFacesAround faces v = some out ∧ out.Perm (vertexAdj faces v) ∧
      out.Nodup ∧ out.length = (vertexAdj faces v).length ∧
      ∀ fi ∈ out, fi < faces.length := by
  obtain ⟨out, ho, hp⟩ := orderedFacesAround_perm faces v hnd h3
  exact ⟨out, ho, hp, hp.nodup_iff.mpr (vertexAdj_nodup faces v hnd), hp.length_eq,
    fun fi hf => vertexAdj_mem_lt faces v fi (hp.mem_iff.mp hf)⟩

/-! ### C2: one dual vertex per face, one dual face per degree-3 vertex -/

lemma dualFacesLoop_length (vertices : List Pt) (faces : List (List ℕ)) :
    ∀ (vs : List ℕ) (dfs : List (List ℕ)),
      dualFacesLoop vertices faces vs = some dfs →
      dfs.length = (vs.filter fun x => 3 ≤ (vertexAdj faces x).length).length := by
  intro vs
  induction vs with
  | nil =>
    intro dfs h
    simp only [dualFacesLoop, Option.some_inj] at h
    subst h
    rfl
  | cons v rest ih =>
    intro dfs h
    by_cases h3 : (vertexAdj faces v).length < 3
    · rw [dualFacesLoop, if_pos h3] at h
      have hnot : ¬ 3 ≤ (vertexAdj faces v).length := by omega
      rw [ih dfs h, List.filter_cons]
      simp [hnot]
    · cases ho : orderedFacesAround faces v with
      | none => rw [dualFacesLoop, if_neg h3, ho] at h; cases h
      | some ord =>
        cases hr : dualFacesLoop vertices faces rest with
        | none =>
          rw [dualFacesLoop, if_neg h3, ho] at h
          rw [hr] at h
          cases h
        | some restFaces =>
          rw [dualFacesLoop, if_neg h3, ho] at h
          rw [hr] at h
          have h3' : 3 ≤ (vertexAdj faces v).length := by omega
          injection h with h
          subst h
          simp [List.filter_cons, h3', ih restFaces hr]

lemma mem_flatten_of_adj_ne_nil (faces : List (List ℕ)) (v : ℕ)
    (h : vertexAdj faces v ≠ []) : v ∈ faces.flatten := by
  obtain ⟨y, hy⟩ := List.exists_mem_of_ne_nil _ h
  unfold vertexAdj at hy
  simp only [List.mem_flatMap, List.mem_range, List.mem_map, List.mem_filter,
    decide_eq_true_eq] at hy
  obtain ⟨fi, hfi, x, ⟨hxf, hxv⟩, -⟩ := hy
  rw [List.mem_flatten]
  refine ⟨faces.getD fi [], ?_, hxv ▸ hxf⟩
  rw [List.getD_eq_getElem _ _ hfi]
  exact List.getElem_mem _

lemma mem_le_foldr_max (l : List ℕ) (x : ℕ) (h : x ∈ l) : x ≤ l.foldr max 0 := by
  induction l with
  | nil => cases h
  | cons a t ih =>
    rcases List.mem_cons.mp h with rfl | h
    · exact le_max_left _ _
    · exact le_trans (ih h) (le_max_right _ _)

lemma mem_occurring_iff (faces : List (List ℕ)) (v : ℕ) :
    v ∈ occurringVertices faces ↔ v ∈ faces.flatten := by
  unfold occurringVertices
  rw [List.mem_filter]
  constructor
  · rintro ⟨-, h⟩
    simpa using h
  · intro h
    exact ⟨List.mem_range.mpr (Nat.lt_succ_of_le (mem_le_foldr_max _ _ h)),
      by simpa using h⟩

lemma occurring_filter_length_eq (vertices : List Pt) (faces : List (List ℕ))
    (hvalid : ∀ face ∈ faces, ∀ i ∈ face, i < vertices.length) :
    ((occurringVertices faces).filter fun x => 3 ≤ (vertexAdj faces x).length).length =
      ((List.range vertices.length).filter
        fun x => 3 ≤ (vertexAdj faces x).length).length := by
  apply List.Perm.length_eq
  apply List.perm_of_nodup_nodup_toFinset_eq
  · exact List.Nodup.filter _ (List.Nodup.filter _ (List.nodup_range _))
  · exact List.Nodup.filter _ (List.nodup_range _)
  · ext x
    simp only [List.mem_toFinset, List.mem_filter, List.mem_range, decide_eq_true_eq]
    constructor
    · rintro ⟨-, hP⟩
      have hne : vertexAdj faces x ≠ [] := by
        intro he
        rw [he] at hP
        simp at hP
      have hx := mem_flatten_of_adj_ne_nil faces x hne
      rw [List.mem_flatten] at hx
      obtain ⟨face, hface, hxf⟩ := hx
      exact ⟨hvalid face hface x hxf, hP⟩
    · rintro ⟨-, hP⟩
      have hne : vertexAdj faces x ≠ [] := by
        intro he
        rw [he] at hP
        simp at hP
      exact ⟨(mem_occurring_iff faces x).mpr (mem_flatten_of_adj_ne_nil faces x hne), hP⟩

lemma computeDual_some_parts (vertices : List Pt) (faces : List (List ℕ))
    (dvs : List Pt) (dfs : List (List ℕ))
    (h : computeDual vertices faces = some (dvs, dfs)) :
    (faces ≠ [] ∧ ∀ face ∈ faces, 3 ≤ face.length ∧ ∀ i ∈ face, i < vertices.length) ∧
    dvs = normalizedVertices vertices faces ∧
    dualFacesOpt vertices faces = some dfs := by
  unfold computeDual at h
  split at h
  case isTrue hg =>
    cases ho : dualFacesOpt vertices faces with
    | none => rw [ho] at h; cases h
    | some d =>
      rw [ho] at h
      simp only [Option.map_some', Option.some_inj, Prod.mk.injEq] at h
      refine ⟨hg, h.1.symm, ?_⟩
      rw [h.2]
  case isFalse => cases h

/-- C2: whenever `computeDual` returns, the dual has exactly one vertex per
original face and exactly one face per original vertex with at least 3
incident faces; vertices of degree `< 3` contribute no dual face (they are
silently skipped, causing no error). -/
theorem computeDual_counts (vertices : List Pt) (faces : List (List ℕ))
    (dvs : List Pt) (dfs : List (List ℕ))
    (h : computeDual vertices faces = some (dvs, dfs)) :
    dvs.length = faces.length ∧
    dfs.length = ((List.range vertices.length).filter
      fun x => 3 ≤ (vertexAdj faces x).length).length := by
  obtain ⟨⟨-, hvalid⟩, hdvs, hdfs⟩ := computeDual_some_parts vertices faces dvs dfs h
  constructor
  · rw [hdvs]
    unfold normalizedVertices dualVertices
    simp
  · rw [dualFacesLoop_length vertices faces _ dfs hdfs]
    exact occurring_filter_length_eq vertices faces fun face hf i hi => (hvalid face hf).2 i hi

/-! ### C3: the orientation fix-up makes the Newell dot nonnegative -/

lemma newellTerm_anti (a b : Pt) : newellTerm a b = - newellTerm b a := by
  unfold newellTerm
  simp only [Prod.neg_mk]
  refine Prod.ext (by ring) (Prod.ext (by ring) (by ring))

/-- The Newell sum over consecutive (non-wrapped) pairs. -/
def adjTermSum : List Pt → Pt
  | [] => 0
  | [_] => 0
  | a :: b :: t => newellTerm a b + adjTermSum (b :: t)

lemma zip_wrap_sum : ∀ (l : List Pt) (z : Pt),
    ((l.zip (l.tail ++ [z])).map fun q => newellTerm q.1 q.2).sum =
      adjTermSum l + if l = [] then 0 else newellTerm (l.getLast?.getD 0) z := by
  intro l
  induction l with
  | nil => intro z; simp [adjTermSum]
  | cons a t ih =>
    intro z
    cases t with
    | nil => simp [adjTermSum]
    | cons b t2 =>
      have hzip : ((a :: b :: t2).zip ((a :: b :: t2).tail ++ [z])) =
          (a, b) :: ((b :: t2).zip ((b :: t2).tail ++ [z])) := by
        simp [List.zip_cons_cons]
      rw [hzip, List.map_cons, List.sum_cons, ih z]
      have hne : (b :: t2) ≠ [] := List.cons_ne_nil _ _
      rw [if_neg hne, if_neg (List.cons_ne_nil a (b :: t2))]
      have hlast : (a :: b :: t2).getLast? = (b :: t2).getLast? :=
        List.getLast?_cons_cons
      rw [show adjTermSum (a :: b :: t2) = newellTerm a b + adjTermSum (b :: t2) from rfl,
        hlast]
      abel

lemma newell_eq_zip (l : List Pt) :
    newell l =
      ((l.zip (l.tail ++ [l.head?.getD 0])).map fun q => newellTerm q.1 q.2).sum := by
  cases hl : l with
  | nil => simp [newell]
  | cons a t =>
    unfold newell
    congr 1
    apply List.ext_getElem
    · simp [List.length_zip]
    · intro i h1 h2
      have hn : (a :: t).length = t.length + 1 := rfl
      have hi : i < (a :: t).length := by
        simpa using h1
      simp only [List.getElem_map, List.getElem_range, List.getElem_zip]
      have hfst : (a :: t).getD i 0 = (a :: t)[i] := List.getD_eq_getElem _ _ hi
      rw [hfst]
      congr 1
      · simp only [List.tail_cons, List.head?_cons, Option.getD_some]
        by_cases hlt : i + 1 < (a :: t).length
        · have hmod : (i + 1) % (a :: t).length = i + 1 := Nat.mod_eq_of_lt hlt
          have hit : i < t.length := by
            simp only [List.length_cons] at hlt
            omega
          rw [hmod, List.getD_eq_getElem _ _ hlt, List.getElem_cons_succ,
            List.getElem_append_left hit]
        · have hieq : i = t.length := by
            simp only [List.length_cons] at hi hlt
            omega
          have hmod : (i + 1) % (a :: t).length = 0 := by
            rw [List.length_cons, hieq]
            simp
          subst hieq
          have hw : t.length < (t ++ [a]).length := by simp
          have hget : (t ++ [a])[t.length] = a := List.getElem_concat_length t a _ rfl hw
          rw [hmod, hget]
          rfl

lemma newell_decomp (l : List Pt) :
    newell l = adjTermSum l +
      if l = [] then 0 else newellTerm (l.getLast?.getD 0) (l.head?.getD 0) := by
  rw [newell_eq_zip, zip_wrap_sum]

lemma adjTermSum_append_last : ∀ (m : List Pt) (x : Pt),
    adjTermSum (m ++ [x]) =
      adjTermSum m + if m = [] then 0 else newellTerm (m.getLast?.getD 0) x := by
  intro m
  induction m with
  | nil => intro x; simp [adjTermSum]
  | cons a t ih =>
    intro x
    cases t with
    | nil => simp [adjTermSum]
    | cons b t2 =>
      have hstep : adjTermSum ((a :: b :: t2) ++ [x]) =
          newellTerm a b + adjTermSum ((b :: t2) ++ [x]) := rfl
      rw [hstep, ih x, if_neg (List.cons_ne_nil b t2),
        if_neg (List.cons_ne_nil a (b :: t2))]
      have hlast : (a :: b :: t2).getLast? = (b :: t2).getLast? :=
        List.getLast?_cons_cons
      rw [show adjTermSum (a :: b :: t2) = newellTerm a b + adjTermSum (b :: t2) from rfl,
        hlast]
      abel

lemma adjTermSum_reverse : ∀ l : List Pt, adjTermSum l.reverse = - adjTermSum l := by
  intro l
  induction l with
  | nil => simp [adjTermSum]
  | cons a t ih =>
    cases t with
    | nil => simp [adjTermSum]
    | cons b t2 =>
      rw [List.reverse_cons, adjTermSum_append_last]
      have hne : (b :: t2).reverse ≠ [] := by simp
      rw [if_neg hne, ih, List.getLast?_reverse]
      have hhead : (b :: t2).head?.getD 0 = b := rfl
      rw [hhead, newellTerm_anti b a,
        show adjTermSum (a :: b :: t2) = newellTerm a b + adjTermSum (b :: t2) from rfl]
      abel

lemma newell_reverse (l : List Pt) : newell l.reverse = - newell l := by
  cases hl : l with
  | nil => simp [newell]
  | cons a t =>
    rw [← hl, newell_decomp, newell_decomp]
    have h1 : l.reverse ≠ [] := by simp [hl]
    have h2 : l ≠ [] := by simp [hl]
    rw [if_neg h1, if_neg h2, adjTermSum_reverse, List.getLast?_reverse,
      List.head?_reverse, newellTerm_anti]
    abel

lemma centroid_reverse (l : List Pt) : centroid l.reverse = centroid l := by
  unfold centroid
  rw [List.sum_reverse, List.length_reverse]

lemma dot_neg_left (a b : Pt) : dot (-a) b = - dot a b := by
  unfold dot
  simp only [Prod.fst_neg, Prod.snd_neg]
  ring

lemma newellCentroidDot_reverse (pts : List Pt) :
    newellCentroidDot pts.reverse = - newellCentroidDot pts := by
  unfold newellCentroidDot
  rw [newell_reverse, centroid_reverse, dot_neg_left]

lemma orientFace_nonneg (dv : List Pt) (ord : List ℕ) :
    0 ≤ newellCentroidDot (facePoints dv (orientFace dv ord)) := by
  unfold orientFace
  split
  case isTrue hneg =>
    have hrev : facePoints dv ord.reverse = (facePoints dv ord).reverse :=
      List.map_reverse _ _
    rw [hrev, newellCentroidDot_reverse]
    linarith
  case isFalse hpos =>
    exact not_lt.mp hpos

lemma dualFacesLoop_mem (vertices : List Pt) (faces : List (List ℕ)) :
    ∀ (vs : List ℕ) (dfs : List (List ℕ)),
      dualFacesLoop vertices faces vs = some dfs →
      ∀ df ∈ dfs, ∃ ord, df = orientFace (dualVertices vertices faces) ord := by
  intro vs
  induction vs with
  | nil =>
    intro dfs h
    simp only [dualFacesLoop, Option.some_inj] at h
    subst h
    intro df hdf
    cases hdf
  | cons v rest ih =>
    intro dfs h
    by_cases h3 : (vertexAdj faces v).length < 3
    · rw [dualFacesLoop, if_pos h3] at h
      exact ih dfs h
    · cases ho : orderedFacesAround faces v with
      | none => rw [dualFacesLoop, if_neg h3, ho] at h; cases h
      | some ord =>
        cases hr : dualFacesLoop vertices faces rest with
        | none =>
          rw [dualFacesLoop, if_neg h3, ho] at h
          rw [hr] at h
          cases h
        | some restFaces =>
          rw [dualFacesLoop, if_neg h3, ho] at h
          rw [hr] at h
          injection h with h
          subst h
          intro df hdf
          rcases List.mem_cons.mp hdf with rfl | hdf
          · exact ⟨ord, rfl⟩
          · exact ih restFaces hr df hdf

/-- C3 (amended): for every dual face in the output of `computeDual`, the
Newell normal over the emitted index order dotted with the face centroid is
nonnegative after the orientation fix-up (the fix-up reverses the order
whenever the dot is negative, which exactly negates the Newell normal); the
dot is strictly positive except in degenerate cases where it is zero. -/
theorem dualFaces_outward_nonneg (vertices : List Pt) (faces : List (List ℕ))
    (dvs : List Pt) (dfs : List (List ℕ)) (df : List ℕ)
    (h : computeDual vertices faces = some (dvs, dfs)) (hdf : df ∈ dfs) :
    0 ≤ newellCentroidDot (facePoints (dualVertices vertices faces) df) := by
  obtain ⟨-, -, hdfs⟩ := computeDual_some_parts vertices faces dvs dfs h
  obtain ⟨ord, rfl⟩ := dualFacesLoop_mem vertices faces _ dfs hdfs df hdf
  exact orientFace_nonneg _ _

/-! ### C9: the final rescale -/

lemma norm3_mul_right (c : ℝ) (p : Pt) :
    norm3 (p.1 * c, p.2.1 * c, p.2.2 * c) = |c| * norm3 p := by
  unfold norm3 dot
  rw [show p.1 * c * (p.1 * c) + p.2.1 * c * (p.2.1 * c) + p.2.2 * c * (p.2.2 * c) =
      c ^ 2 * (p.1 * p.1 + p.2.1 * p.2.1 + p.2.2 * p.2.2) from by ring]
  rw [Real.sqrt_mul (sq_nonneg c), Real.sqrt_sq_eq_abs]

/-- C9: every dual vertex in the returned result is the reciprocation-step
vertex multiplied by the single scalar `|vertices[0]| / |dualVertices[0]|`;
consequently, whenever `|dualVertices[0]|` is nonzero, the first returned dual
vertex has the same distance from the origin as the first original vertex. -/
theorem computeDual_rescale (vertices : List Pt) (faces : List (List ℕ))
    (dvs : List Pt) (dfs : List (List ℕ))
    (h : computeDual vertices faces = some (dvs, dfs))
    (hdd : dualDist vertices faces ≠ 0) :
    dvs = (dualVertices vertices faces).map (fun p =>
      (p.1 * (origDist vertices / dualDist vertices faces),
       p.2.1 * (origDist vertices / dualDist vertices faces),
       p.2.2 * (origDist vertices / dualDist vertices faces))) ∧
    norm3 (dvs.getD 0 0) = norm3 (vertices.getD 0 0) := by
  obtain ⟨-, hdvs, -⟩ := computeDual_some_parts vertices faces dvs dfs h
  have hform : dvs = (dualVertices vertices faces).map (fun p =>
      (p.1 * (origDist vertices / dualDist vertices faces),
       p.2.1 * (origDist vertices / dualDist vertices faces),
       p.2.2 * (origDist vertices / dualDist vertices faces))) := by
    rw [hdvs]
    rfl
  refine ⟨hform, ?_⟩
  rw [hform]
  have hz : ((0 : Pt).1 * (origDist vertices / dualDist vertices faces),
      (0 : Pt).2.1 * (origDist vertices / dualDist vertices faces),
      (0 : Pt).2.2 * (origDist vertices / dualDist vertices faces)) = (0 : Pt) := by
    show ((0 : ℝ) * _, (0 : ℝ) * _, (0 : ℝ) * _) = ((0 : ℝ), (0 : ℝ), (0 : ℝ))
    simp
  have hget : (List.map (fun p : Pt =>
      (p.1 * (origDist vertices / dualDist vertices faces),
       p.2.1 * (origDist vertices / dualDist vertices faces),
       p.2.2 * (origDist vertices / dualDist vertices faces)))
      (dualVertices vertices faces)).getD 0 (0 : Pt) =
      (((dualVertices vertices faces).getD 0 0).1 *
        (origDist vertices / dualDist vertices faces),
       ((dualVertices vertices faces).getD 0 0).2.1 *
        (origDist vertices / dualDist vertices faces),
       ((dualVertices vertices faces).getD 0 0).2.2 *
        (origDist vertices / dualDist vertices faces)) := by
    conv_lhs => rw [← hz]
    exact List.getD_map _ _ _
  rw [hget, norm3_mul_right]
  have hs0 : 0 ≤ origDist vertices / dualDist vertices faces :=
    div_nonneg (Real.sqrt_nonneg _) (Real.sqrt_nonneg _)
  rw [abs_of_nonneg hs0]
  have hdd' : norm3 ((dualVertices vertices faces).getD 0 0) = dualDist vertices faces :=
    rfl
  rw [hdd', div_mul_cancel₀ _ hdd]
  rfl

/-! ### C7: Euler's formula over the catalogue -/

lemma normalizeVerts_length (vs : List Pt) : (normalizeVerts vs).length = vs.length :=
  List.length_map _ _

/-- C7 (amended): every catalogued polyhedron with explicit (nonempty) face
data satisfies Euler's relation `E = V + F - 2` for the edges derived from
its face list; the convex-hull-fallback entries carry an empty face list and
derive 0 edges, so the relation fails for them. -/
theorem catalogue_euler_with_faces (p : Poly) (hp : p ∈ catalogue)
    (hf : p.faces ≠ []) :
    (edgeFinset p.faces).card = p.vertices.length + p.faces.length - 2 := by
  fin_cases hp <;>
    first
      | exact absurd rfl hf
      | (simp only [tetrahedron, cube, octahedron, dodecahedron, icosahedron,
          cuboctahedron]
         rw [normalizeVerts_length]
         decide)

/-- C7 counterexample: the catalogued truncated tetrahedron (a convex-hull
fallback entry with an empty face list) derives 0 edges from its face list,
but `V + F - 2 = 12 + 0 - 2 = 10`. -/
theorem catalogue_euler_counterexample :
    truncatedTetrahedron ∈ catalogue ∧
    (edgeFinset truncatedTetrahedron.faces).card = 0 ∧
    truncatedTetrahedron.vertices.length + truncatedTetrahedron.faces.length - 2 = 10 ∧
    (edgeFinset truncatedTetrahedron.faces).card ≠
      truncatedTetrahedron.vertices.length + truncatedTetrahedron.faces.length - 2 := by
  refine ⟨by simp [catalogue], rfl, ?_, ?_⟩
  · show (normalizeVerts _).length + _ - 2 = 10
    rw [normalizeVerts_length]
    rfl
  · show (edgeFinset truncatedTetrahedron.faces).card ≠
      (normalizeVerts _).length + _ - 2
    rw [normalizeVerts_length]
    decide

/-- C7 witness: the cube entry satisfies the amended relation,
`12 = 8 + 6 - 2`. -/
theorem catalogue_euler_with_faces_witness :
    (edgeFinset cube.faces).card = cube.vertices.length + cube.faces.length - 2 :=
  catalogue_euler_with_faces cube (by simp [catalogue]) (by simp [cube])

/-! ### A concrete input for witnesses and the C3 counterexample

Three triangles in the plane `z = 1` sharing vertex 0.  `computeDual` runs to
completion on it, every reciprocation vertex evaluates to the same point
`(0, 0, r²)`, and the Newell dot of the single emitted dual face is exactly
`0` — not positive. -/

/-- Example vertices: four points in the plane `z = 1`. -/
def exV : List Pt := [(0, 0, 1), (1, 0, 1), (0, 1, 1), (-1, 1, 1)]

/-- Example faces: three triangles sharing vertex 0. -/
def exF : List (List ℕ) := [[0, 1, 2], [0, 2, 3], [0, 3, 1]]

lemma exDV_face1 (r2 : ℝ) : dualVertexOfFace exV r2 [0, 1, 2] = (0, 0, r2) := by
  unfold dualVertexOfFace normalize
  rw [show exV.getD ([0, 1, 2].getD 0 0) 0 = ((0 : ℝ), (0 : ℝ), (1 : ℝ)) from rfl,
    show exV.getD ([0, 1, 2].getD 1 0) 0 = ((1 : ℝ), (0 : ℝ), (1 : ℝ)) from rfl,
    show exV.getD ([0, 1, 2].getD 2 0) 0 = ((0 : ℝ), (1 : ℝ), (1 : ℝ)) from rfl,
    show ([0, 1, 2].map fun i => exV.getD i 0).sum =
      ((0 : ℝ) + 1 + 0, (0 : ℝ) + 0 + 1, (1 : ℝ) + 1 + 1) from by
        rw [show ([0, 1, 2].map fun i => exV.getD i 0) =
          [((0 : ℝ), (0 : ℝ), (1 : ℝ)), ((1 : ℝ), (0 : ℝ), (1 : ℝ)),
           ((0 : ℝ), (1 : ℝ), (1 : ℝ))] from rfl]
        show ((0 : ℝ) + (1 + (0 + 0)), (0 : ℝ) + (0 + (1 + 0)), (1 : ℝ) + (1 + (1 + 0))) = _
        norm_num]
  norm_num [cross, sub, dot, Real.sqrt_one]

lemma exDV_face2 (r2 : ℝ) : dualVertexOfFace exV r2 [0, 2, 3] = (0, 0, r2) := by
  unfold dualVertexOfFace normalize
  rw [show exV.getD ([0, 2, 3].getD 0 0) 0 = ((0 : ℝ), (0 : ℝ), (1 : ℝ)) from rfl,
    show exV.getD ([0, 2, 3].getD 1 0) 0 = ((0 : ℝ), (1 : ℝ), (1 : ℝ)) from rfl,
    show exV.getD ([0, 2, 3].getD 2 0) 0 = ((-1 : ℝ), (1 : ℝ), (1 : ℝ)) from rfl,
    show ([0, 2, 3].map fun i => exV.getD i 0).sum =
      ((0 : ℝ) + 0 + -1, (0 : ℝ) + 1 + 1, (1 : ℝ) + 1 + 1) from by
        rw [show ([0, 2, 3].map fun i => exV.getD i 0) =
          [((0 : ℝ), (0 : ℝ), (1 : ℝ)), ((0 : ℝ), (1 : ℝ), (1 : ℝ)),
           ((-1 : ℝ), (1 : ℝ), (1 : ℝ))] from rfl]
        show ((0 : ℝ) + (0 + (-1 + 0)), (0 : ℝ) + (1 + (1 + 0)), (1 : ℝ) + (1 + (1 + 0))) = _
        norm_num]
  norm_num [cross, sub, dot, Real.sqrt_one]

lemma exDV_face3 (r2 : ℝ) : dualVertexOfFace exV r2 [0, 3, 1] = (0, 0, r2) := by
  unfold dualVertexOfFace normalize
  rw [show exV.getD ([0, 3, 1].getD 0 0) 0 = ((0 : ℝ), (0 : ℝ), (1 : ℝ)) from rfl,
    show exV.getD ([0, 3, 1].getD 1 0) 0 = ((-1 : ℝ), (1 : ℝ), (1 : ℝ)) from rfl,
    show exV.getD ([0, 3, 1].getD 2 0) 0 = ((1 : ℝ), (0 : ℝ), (1 : ℝ)) from rfl,
    show ([0, 3, 1].map fun i => exV.getD i 0).sum =
      ((0 : ℝ) + -1 + 1, (0 : ℝ) + 1 + 0, (1 : ℝ) + 1 + 1) from by
        rw [show ([0, 3, 1].map fun i => exV.getD i 0) =
          [((0 : ℝ), (0 : ℝ), (1 : ℝ)), ((-1 : ℝ), (1 : ℝ), (1 : ℝ)),
           ((1 : ℝ), (0 : ℝ), (1 : ℝ))] from rfl]
        show ((0 : ℝ) + (-1 + (1 + 0)), (0 : ℝ) + (1 + (0 + 0)), (1 : ℝ) + (1 + (1 + 0))) = _
        norm_num]
  norm_num [cross, sub, dot, Real.sqrt_one]

lemma exDV : dualVertices exV exF =
    [(0, 0, midsphereR2 exV exF), (0, 0, midsphereR2 exV exF),
     (0, 0, midsphereR2 exV exF)] := by
  show List.map (dualVertexOfFace exV (midsphereR2 exV exF)) [[0, 1, 2], [0, 2, 3], [0, 3, 1]] = _
  rw [List.map_cons, List.map_cons, List.map_cons, List.map_nil,
    exDV_face1, exDV_face2, exDV_face3]

lemma newellTerm_self (p : Pt) : newellTerm p p = 0 := by
  unfold newellTerm
  rw [show (0 : Pt) = ((0 : ℝ), (0 : ℝ), (0 : ℝ)) from rfl]
  refine Prod.ext (by ring) (Prod.ext (by ring) (by ring))

lemma dot_zero_left (b : Pt) : dot 0 b = 0 := by
  show (0 : ℝ) * b.1 + (0 : ℝ) * b.2.1 + (0 : ℝ) * b.2.2 = 0
  ring

lemma newell_const3 (p : Pt) : newell [p, p, p] = 0 := by
  rw [newell_decomp, if_neg (List.cons_ne_nil _ _)]
  have h1 : adjTermSum [p, p, p] = newellTerm p p + (newellTerm p p + 0) := rfl
  have h2 : ([p, p, p] : List Pt).getLast?.getD 0 = p := rfl
  have h3 : ([p, p, p] : List Pt).head?.getD 0 = p := rfl
  rw [h1, h2, h3, newellTerm_self]
  simp

lemma exNewellZero :
    newellCentroidDot (facePoints (dualVertices exV exF) [0, 2, 1]) = 0 := by
  rw [exDV]
  rw [show facePoints [(0, 0, midsphereR2 exV exF), (0, 0, midsphereR2 exV exF),
      (0, 0, midsphereR2 exV exF)] [0, 2, 1] =
      [(0, 0, midsphereR2 exV exF), (0, 0, midsphereR2 exV exF),
       (0, 0, midsphereR2 exV exF)] from rfl]
  unfold newellCentroidDot
  rw [newell_const3, dot_zero_left]

lemma exOrient : orientFace (dualVertices exV exF) [0, 2, 1] = [0, 2, 1] := by
  unfold orientFace
  rw [exNewellZero, if_neg (lt_irrefl (0 : ℝ))]

lemma exWalk : orderedFacesAround exF 0 = some [0, 2, 1] := by decide

lemma exAdj0_len : ¬ (vertexAdj exF 0).length < 3 := by decide

lemma exAdj1_len : (vertexAdj exF 1).length < 3 := by decide

lemma exAdj2_len : (vertexAdj exF 2).length < 3 := by decide

lemma exAdj3_len : (vertexAdj exF 3).length < 3 := by decide

lemma exLoop3 : dualFacesLoop exV exF [3] = some [] := by
  rw [dualFacesLoop, if_pos exAdj3_len]
  rfl

lemma exLoop2 : dualFacesLoop exV exF [2, 3] = some [] := by
  rw [dualFacesLoop, if_pos exAdj2_len]
  exact exLoop3

lemma exLoop1 : dualFacesLoop exV exF [1, 2, 3] = some [] := by
  rw [dualFacesLoop, if_pos exAdj1_len]
  exact exLoop2

lemma exLoop : dualFacesLoop exV exF [0, 1, 2, 3] = some [[0, 2, 1]] := by
  rw [dualFacesLoop, if_neg exAdj0_len, exWalk, exLoop1]
  show some (orientFace (dualVertices exV exF) [0, 2, 1] :: []) = some [[0, 2, 1]]
  rw [exOrient]

lemma exOcc : occurringVertices exF = [0, 1, 2, 3] := by decide

lemma exDualFaces : dualFacesOpt exV exF = some [[0, 2, 1]] := by
  unfold dualFacesOpt
  rw [exOcc]
  exact exLoop

lemma exEval : computeDual exV exF = some (normalizedVertices exV exF, [[0, 2, 1]]) := by
  unfold computeDual
  rw [if_pos (by decide :
    exF ≠ [] ∧ ∀ face ∈ exF, 3 ≤ face.length ∧ ∀ i ∈ face, i < exV.length)]
  rw [exDualFaces]
  rfl

/-- C3 counterexample: on the flat input `exV`/`exF` (vertex 0 of degree 3,
all reciprocation vertices coincident), `computeDual` returns the dual face
`[0, 2, 1]` whose Newell-normal-dot-centroid is exactly `0`, not positive —
the claim's strict outward-facing condition fails. -/
theorem dualFaces_outward_counterexample :
    computeDual exV exF = some (normalizedVertices exV exF, [[0, 2, 1]]) ∧
    newellCentroidDot (facePoints (dualVertices exV exF) [0, 2, 1]) = 0 ∧
    ¬ (0 < newellCentroidDot (facePoints (dualVertices exV exF) [0, 2, 1])) := by
  refine ⟨exEval, exNewellZero, ?_⟩
  rw [exNewellZero]
  exact lt_irrefl 0

/-! ### Witness evaluations on the example input -/

lemma exUniqueEdges : uniqueEdges exF = [(0, 1), (1, 2), (2, 0), (2, 3), (3, 0), (3, 1)] := by
  decide

lemma midDist_nonneg (vertices : List Pt) (p : ℕ × ℕ) : 0 ≤ midDist vertices p :=
  Real.sqrt_nonneg _

lemma exMid1_pos : 0 < midDist exV (0, 1) := by
  unfold midDist
  apply Real.sqrt_pos.mpr
  rw [show exV.getD ((0, 1) : ℕ × ℕ).1 0 = ((0 : ℝ), (0 : ℝ), (1 : ℝ)) from rfl,
    show exV.getD ((0, 1) : ℕ × ℕ).2 0 = ((1 : ℝ), (0 : ℝ), (1 : ℝ)) from rfl]
  norm_num [dot]

lemma exR_pos : 0 < midsphereR2 exV exF := by
  unfold midsphereR2
  apply pow_pos
  apply div_pos
  · rw [exUniqueEdges]
    rw [show List.map (midDist exV) [(0, 1), (1, 2), (2, 0), (2, 3), (3, 0), (3, 1)] =
      [midDist exV (0, 1), midDist exV (1, 2), midDist exV (2, 0), midDist exV (2, 3),
       midDist exV (3, 0), midDist exV (3, 1)] from rfl]
    have h1 := exMid1_pos
    have h2 := midDist_nonneg exV (1, 2)
    have h3 := midDist_nonneg exV (2, 0)
    have h4 := midDist_nonneg exV (2, 3)
    have h5 := midDist_nonneg exV (3, 0)
    have h6 := midDist_nonneg exV (3, 1)
    rw [List.sum_cons, List.sum_cons, List.sum_cons, List.sum_cons, List.sum_cons,
      List.sum_cons, List.sum_nil]
    linarith
  · rw [exUniqueEdges]
    norm_num

lemma dot_self_z (r : ℝ) : dot (0, 0, r) (0, 0, r) = r ^ 2 := by
  show (0 : ℝ) * 0 + 0 * 0 + r * r = r ^ 2
  ring

lemma exDualDist_eq : dualDist exV exF = midsphereR2 exV exF := by
  unfold dualDist
  rw [exDV]
  rw [show ([(0, 0, midsphereR2 exV exF), (0, 0, midsphereR2 exV exF),
      (0, 0, midsphereR2 exV exF)] : List Pt).getD 0 0 =
      ((0 : ℝ), (0 : ℝ), midsphereR2 exV exF) from rfl]
  unfold norm3
  rw [dot_self_z, Real.sqrt_sq_eq_abs, abs_of_pos exR_pos]

lemma exDualDist_ne : dualDist exV exF ≠ 0 := by
  rw [exDualDist_eq]
  exact ne_of_gt exR_pos

/-- C1 witness: the reciprocation result on the concrete input `exV`/`exF`. -/
theorem dualVertices_polar_reciprocation_witness :
    (dualVertices exV exF).length = exF.length ∧
    dualVertices exV exF =
      exF.map (specDualVertexOfFace exV (specMidsphereR2 exV exF)) :=
  dualVertices_polar_reciprocation exV exF (by decide)

/-- C2 witness: `computeDual` on `exV`/`exF` has 3 dual vertices (one per
face) and 1 dual face (vertex 0 is the only vertex of degree at least 3). -/
theorem computeDual_counts_witness :
    (normalizedVertices exV exF).length = exF.length ∧
    ([[0, 2, 1]] : List (List ℕ)).length =
      ((List.range exV.length).filter fun x => 3 ≤ (vertexAdj exF x).length).length :=
  computeDual_counts exV exF (normalizedVertices exV exF) [[0, 2, 1]] exEval

/-- C3 witness: the single emitted dual face of the example has nonnegative
Newell dot. -/
theorem dualFaces_outward_nonneg_witness :
    0 ≤ newellCentroidDot (facePoints (dualVertices exV exF) [0, 2, 1]) :=
  dualFaces_outward_nonneg exV exF (normalizedVertices exV exF) [[0, 2, 1]] [0, 2, 1]
    exEval (List.mem_singleton.mpr rfl)

/-- C4 witness: equal inputs give equal outputs on the example input. -/
theorem computeDual_deterministic_witness :
    computeDual exV exF = computeDual exV exF :=
  computeDual_deterministic exV exV exF exF rfl rfl

/-- C5 witness: the triangulation shape on the concrete input `exV`/`exF`. -/
theorem buildColored_fan_triangulation_witness :
    buildColoredGeometry exV (3 / 2) exF =
      some (exF.flatMap (specFanFloats exV (3 / 2)),
        exF.flatMap fun face =>
          (List.replicate (3 * (face.length - 2)) (faceColor face)).flatMap
            fun c => [c.1, c.2.1, c.2.2],
        exF.flatMap fun face =>
          (List.replicate (3 * (face.length - 2)) (faceNormal exV face)).flatMap
            fun c => [c.1, c.2.1, c.2.2]) ∧
    (exF.flatMap (specFanFloats exV (3 / 2))).length =
      9 * (exF.map fun face => face.length - 2).sum :=
  buildColored_fan_triangulation exV (3 / 2) exF (by decide)

/-- C6 witness: on the catalogued cube (8 vertices, 6 quadrilateral faces) the
builder emits exactly 12 unique segments, never 24. -/
theorem buildEdges_unique_segments_witness :
    (buildEdgesGeometry cube.vertices cube.faces (3 / 2) =
      some ((uniqueEdges cube.faces).flatMap (segmentFloats cube.vertices (3 / 2))) ∧
     ((uniqueEdges cube.faces).flatMap (segmentFloats cube.vertices (3 / 2))).length =
      6 * (edgeFinset cube.faces).card) ∧
    (edgeFinset cube.faces).card = 12 :=
  ⟨buildEdges_unique_segments cube.vertices cube.faces (3 / 2) (by decide), by decide⟩

/-- C8 witness: a face with index 99 against 4 vertices faults. -/
theorem buildColored_bad_index_faults_witness :
    buildColoredGeometry exV (3 / 2) [[0, 1, 99]] = none :=
  buildColored_bad_index_faults exV (3 / 2) [[0, 1, 99]] (by decide)

/-- C9 witness: the rescale identities on the example input, whose
`dualDist` is nonzero. -/
theorem computeDual_rescale_witness :
    normalizedVertices exV exF = (dualVertices exV exF).map (fun p =>
      (p.1 * (origDist exV / dualDist exV exF),
       p.2.1 * (origDist exV / dualDist exV exF),
       p.2.2 * (origDist exV / dualDist exV exF))) ∧
    norm3 ((normalizedVertices exV exF).getD 0 0) = norm3 (exV.getD 0 0) :=
  computeDual_rescale exV exF (normalizedVertices exV exF) [[0, 2, 1]] exEval exDualDist_ne

/-- C10 witness: the walk around vertex 0 of the example terminates with a
permutation of its incident-face list. -/
theorem dualFace_walk_terminates_witness :
    ∃ out, orderedFacesAround exF 0 = some out ∧ out.Perm (vertexAdj exF 0) ∧
      out.Nodup ∧ out.length = (vertexAdj exF 0).length ∧
      ∀ fi ∈ out, fi < exF.length :=
  dualFace_walk_terminates exF 0 (by decide) (by decide)

end PolyhedraViewer
